import Mathlib

/-!
Shallow embedding of the routing core `app/server/routing.py`.

Python floats are modelled as elements of a linear ordered field `α`,
instantiated at `ℚ` for the executable claims and at `ℝ` where the actual
trigonometric haversine formula matters.  The geodesic metric used by the
greedy constructor, the cost-matrix builder and the route evaluator is
passed as an explicit parameter `hav` on coordinate pairs; the
real-number reading of `haversine_km` is defined below and instantiates it
for the claims that depend on the formula itself.  The external `ortools`
solver is modelled as an oracle: a flag `importOk` (the
`try: import ... except ImportError` guard) together with a function
`solve` from the integer cost matrix to an optional visited sequence,
where `none` models `routing.SolveWithParameters` returning no assignment.
-/

namespace Routing

variable {α : Type} [LinearOrderedField α]

/-- Index into the coordinate table: models `coords[i]`, which the routing
code only ever evaluates at in-range indices. -/
def nthCoord (coords : List (α × α)) (i : ℕ) : α × α :=
  coords.getD i (0, 0)

/-- Maximum of a list of field elements, modelling
`max(d for _, d in dists)`; the code only calls it on a non-empty list,
and on `[]` we return `0`. -/
def listMax : List α → α
  | [] => 0
  | x :: xs => xs.foldl max x

/-- Models `d_max = max(...) or 1.0`: Python's `or` substitutes `1.0`
exactly when the maximum is the falsy float `0.0`. -/
def dMaxOf (ds : List α) : α :=
  let m := listMax ds
  if m = 0 then 1 else m

/-- Models the selection loop `for j, d in dists:` comparing
`if score > best_score` over already-scored pairs.  The starting
accumulator `none` models `best_j = None`, `best_score = -inf`: the first
pair always becomes the leader, and a later pair replaces the leader only
on a strictly larger score, so on exact ties the earlier pair wins. -/
def selectBest : List (ℕ × α) → Option (ℕ × α) → Option (ℕ × α)
  | [], best => best
  | (j, s) :: rest, best =>
    match best with
    | none => selectBest rest (some (j, s))
    | some (bj, bs) =>
      if bs < s then selectBest rest (some (j, s))
      else selectBest rest (some (bj, bs))

/-- One step's scored candidate list: the distances from the current
position to every unvisited site (`dists`), their per-step normalisation
divisor `d_max`, and the body of the score formula
`damage_weight * damage_norm - (1 - damage_weight) * dist_norm`;
`damage_scores.getD p.1 0` models `damage_scores[p.1]`, evaluated only at
in-range indices. -/
def stepScores (hav : α × α → α × α → α) (coords : List (α × α))
    (damage_scores : List α) (damage_weight : α)
    (current : ℕ) (unvisited : List ℕ) : List (ℕ × α) :=
  let c := nthCoord coords current
  let dists := unvisited.map fun j => (j, hav c (nthCoord coords j))
  let d_max := dMaxOf (dists.map Prod.snd)
  dists.map fun p =>
    (p.1, damage_weight * (damage_scores.getD p.1 0 / 100) -
          (1 - damage_weight) * (p.2 / d_max))

/-- The score the step assigns to the single unvisited site `j`:
`stepScores` is exactly the map of this expression over `unvisited`. -/
def scoreExpr (hav : α × α → α × α → α) (coords : List (α × α))
    (damage_scores : List α) (damage_weight : α)
    (current : ℕ) (unvisited : List ℕ) (j : ℕ) : α :=
  damage_weight * (damage_scores.getD j 0 / 100) -
    (1 - damage_weight) *
      (hav (nthCoord coords current) (nthCoord coords j) /
        dMaxOf (unvisited.map fun j' =>
          hav (nthCoord coords current) (nthCoord coords j')))

/-- One `while unvisited:` iteration of `_route_order_greedy`, fuelled by
the number of remaining iterations; each productive iteration removes
exactly one element of `unvisited`, so fuel `unvisited.length` makes the
fuel guard unreachable.  `unvisited` is an ascending list of site indices:
CPython iterates a set of small consecutive ints in ascending value order,
which here coincides with insertion order. -/
def greedyLoop (hav : α × α → α × α → α) (coords : List (α × α))
    (damage_scores : List α) (damage_weight : α) :
    ℕ → List ℕ → ℕ → List ℕ → α → List ℕ × α
  | 0, _, _, path, total => (path, total)
  | fuel + 1, unvisited, current, path, total =>
    if unvisited = [] then (path, total)
    else
      match selectBest
          (stepScores hav coords damage_scores damage_weight current unvisited)
          none with
      | none => (path, total)
      | some (j, _) =>
        let d_km := hav (nthCoord coords current) (nthCoord coords j)
        greedyLoop hav coords damage_scores damage_weight fuel
          (unvisited.erase j) j (path ++ [j]) (total + d_km)

/-- Models `_route_order_greedy`. -/
def _route_order_greedy (hav : α × α → α × α → α) (coords : List (α × α))
    (damage_scores : List α) (damage_weight : α) : List ℕ × α :=
  let n := coords.length
  if n ≤ 1 then ([0], 0)
  else
    greedyLoop hav coords damage_scores damage_weight (n - 1)
      (List.range' 1 (n - 1)) 0 [0] 0

/-- Sum of metric distances over consecutive pairs: the body of the
`for i in range(len(order) - 1)` loop of `total_distance_km_along_order`. -/
def pairSum (hav : α × α → α × α → α) (coords : List (α × α)) : List ℕ → α
  | a :: b :: rest =>
    hav (nthCoord coords a) (nthCoord coords b) + pairSum hav coords (b :: rest)
  | _ => 0

/-- Models `total_distance_km_along_order`. -/
def total_distance_km_along_order (hav : α × α → α × α → α)
    (order : List ℕ) (coords : List (α × α)) : α :=
  if order.length ≤ 1 then 0 else pairSum hav coords order

/-- Models `total_distance_km`, an alias of the evaluator in the source. -/
def total_distance_km (hav : α × α → α × α → α)
    (order : List ℕ) (coords : List (α × α)) : α :=
  total_distance_km_along_order hav order coords

/-- Python's `round` to the nearest integer (halves to even), composed
with the `int(...)` conversion in the source. -/
def pyRound [FloorRing α] (x : α) : ℤ :=
  let f := Int.floor x
  let r := x - (f : α)
  if r < 1 / 2 then f
  else if 1 / 2 < r then f + 1
  else if Even f then f else f + 1

/-- Models the cost-matrix construction of `_route_order_tsp`, with
`SCALE = 1000`; `damage_scores.getD j 0` is exactly
`damage_scores[j] if j < len(damage_scores) else 0.0`. -/
def buildCostMatrix [FloorRing α] (hav : α × α → α × α → α)
    (coords : List (α × α)) (damage_scores : List α) (damage_weight : α) :
    List (List ℤ) :=
  let n := coords.length
  (List.range n).map fun i =>
    (List.range n).map fun j =>
      if i = j then 0
      else
        let d_km := hav (nthCoord coords i) (nthCoord coords j)
        let damage := damage_scores.getD j 0
        let cost_km := d_km * (1 - damage_weight * damage / 100)
        let cost_km := if j = 0 then 0 else cost_km
        pyRound (cost_km * 1000)

/-- Models `_route_order_tsp`: `importOk = false` is the
`except ImportError` branch; `solve` stands for building the routing model
and extracting the visited node sequence from the assignment, `none`
modelling `SolveWithParameters` returning no assignment.  The trailing-hub
drop (`order.pop()`) is applied exactly under the source's condition. -/
def _route_order_tsp [FloorRing α] (importOk : Bool)
    (solve : List (List ℤ) → Option (List ℕ))
    (hav : α × α → α × α → α) (coords : List (α × α))
    (damage_scores : List α) (damage_weight : α) : List ℕ × α :=
  if importOk = false then
    _route_order_greedy hav coords damage_scores damage_weight
  else
    let n := coords.length
    if n ≤ 1 then ([0], 0)
    else
      let cost_matrix := buildCostMatrix hav coords damage_scores damage_weight
      match solve cost_matrix with
      | none => _route_order_greedy hav coords damage_scores damage_weight
      | some extracted =>
        let order :=
          if extracted ≠ [] ∧ extracted.getLast? = some 0 ∧ 1 < extracted.length
          then extracted.dropLast else extracted
        (order, total_distance_km_along_order hav order coords)

/-- Models the entry point `route_order`. -/
def route_order [FloorRing α] (importOk : Bool)
    (solve : List (List ℤ) → Option (List ℕ))
    (hav : α × α → α × α → α) (hub : α × α)
    (sites : List (α × α × α)) (damage_weight : α) (algorithm : String) :
    List ℕ × α :=
  let damage_weight := max 0 (min 1 damage_weight)
  if sites = [] then ([0], 0)
  else
    let coords : List (α × α) := hub :: sites.map fun s => (s.1, s.2.1)
    let damage_scores : List α := 0 :: sites.map fun s => s.2.2
    if algorithm = "tsp" then
      _route_order_tsp importOk solve hav coords damage_scores damage_weight
    else
      _route_order_greedy hav coords damage_scores damage_weight

/-- A degenerate metric used to instantiate the metric parameter in
concrete witnesses. -/
def zeroMetric : (ℚ × ℚ) → (ℚ × ℚ) → ℚ := fun _ _ => 0

/-- The solver oracle of an environment where no assignment is ever
produced, used to instantiate witnesses. -/
def noSolver : List (List ℤ) → Option (List ℕ) := fun _ => none

noncomputable section

/-- Models `math.radians`. -/
def radians (x : ℝ) : ℝ := x * (Real.pi / 180)

/-- Models `math.atan2 y x` as the argument of the complex number
`x + y*i`; the two functions agree on every quadrant and at the origin. -/
def atan2 (y x : ℝ) : ℝ := Complex.arg ⟨x, y⟩

/-- Models `haversine_km`, the real-number reading of the float formula
with Earth radius 6371.0 km. -/
def haversine_km (lat1 lng1 lat2 lng2 : ℝ) : ℝ :=
  let R : ℝ := 6371
  let phi1 := radians lat1
  let phi2 := radians lat2
  let dphi := radians (lat2 - lat1)
  let dlam := radians (lng2 - lng1)
  let a := Real.sin (dphi / 2) ^ 2 +
    Real.cos phi1 * Real.cos phi2 * Real.sin (dlam / 2) ^ 2
  let c := 2 * atan2 (Real.sqrt a) (Real.sqrt (1 - a))
  R * c

/-- The metric on coordinate pairs used when the field is `ℝ`. -/
def havReal (p q : ℝ × ℝ) : ℝ := haversine_km p.1 p.2 q.1 q.2

end

/-! ### Lemmas about the selection step -/

theorem selectBest_some_isSome (l : List (ℕ × α)) :
    ∀ b : ℕ × α, (selectBest l (some b)).isSome := by
  induction l with
  | nil => intro b; rfl
  | cons x rest ih =>
    rintro ⟨bj, bs⟩
    obtain ⟨j, s⟩ := x
    simp only [selectBest]
    split <;> exact ih _

theorem selectBest_acc_spec (l : List (ℕ × α)) :
    ∀ b p : ℕ × α, selectBest l (some b) = some p →
      (p = b ∧ ∀ q ∈ l, q.2 ≤ b.2) ∨
      (b.2 < p.2 ∧ ∃ l1 l2, l = l1 ++ p :: l2 ∧
        (∀ q ∈ l1, q.2 < p.2) ∧ ∀ q ∈ l2, q.2 ≤ p.2) := by
  induction l with
  | nil =>
    intro b p h
    simp only [selectBest, Option.some.injEq] at h
    exact Or.inl ⟨h.symm, by simp⟩
  | cons x rest ih =>
    rintro ⟨bj, bs⟩ p h
    obtain ⟨j, s⟩ := x
    simp only [selectBest] at h
    by_cases hlt : bs < s
    · rw [if_pos hlt] at h
      rcases ih (j, s) p h with ⟨hp, hall⟩ | ⟨hb, l1, l2, heq, h1, h2⟩
      · refine Or.inr ⟨by rw [hp]; exact hlt, [], rest, by rw [hp]; rfl, by simp, ?_⟩
        intro q hq
        rw [hp]
        exact hall q hq
      · refine Or.inr ⟨lt_trans hlt hb, (j, s) :: l1, l2, by rw [heq]; rfl, ?_, h2⟩
        intro q hq
        rcases List.mem_cons.mp hq with rfl | hq'
        · exact hb
        · exact h1 q hq'
    · rw [if_neg hlt] at h
      rcases ih (bj, bs) p h with ⟨hp, hall⟩ | ⟨hb, l1, l2, heq, h1, h2⟩
      · refine Or.inl ⟨hp, ?_⟩
        intro q hq
        rcases List.mem_cons.mp hq with rfl | hq'
        · exact not_lt.mp hlt
        · exact hall q hq'
      · refine Or.inr ⟨hb, (j, s) :: l1, l2, by rw [heq]; rfl, ?_, h2⟩
        intro q hq
        rcases List.mem_cons.mp hq with rfl | hq'
        · exact lt_of_le_of_lt (not_lt.mp hlt) hb
        · exact h1 q hq'

theorem selectBest_none_spec (l : List (ℕ × α)) (p : ℕ × α)
    (h : selectBest l none = some p) :
    (∀ q ∈ l, q.2 ≤ p.2) ∧
    ∃ l1 l2, l = l1 ++ p :: l2 ∧ ∀ q ∈ l1, q.2 < p.2 := by
  cases l with
  | nil => exact absurd h (by simp [selectBest])
  | cons x rest =>
    obtain ⟨j, s⟩ := x
    have h' : selectBest rest (some (j, s)) = some p := by
      simpa only [selectBest] using h
    rcases selectBest_acc_spec rest (j, s) p h' with ⟨hp, hall⟩ | ⟨hb, l1, l2, heq, h1, h2⟩
    · subst hp
      refine ⟨?_, [], rest, rfl, by simp⟩
      intro q hq
      rcases List.mem_cons.mp hq with rfl | hq'
      · exact le_refl _
      · exact hall q hq'
    · subst heq
      refine ⟨?_, (j, s) :: l1, l2, rfl, ?_⟩
      · intro q hq
        rcases List.mem_cons.mp hq with rfl | hq'
        · exact le_of_lt hb
        · rcases List.mem_append.mp hq' with hql | hqr
          · exact le_of_lt (h1 q hql)
          · rcases List.mem_cons.mp hqr with rfl | hq2
            · exact le_refl _
            · exact h2 q hq2
      · intro q hq
        rcases List.mem_cons.mp hq with rfl | hq'
        · exact hb
        · exact h1 q hq'

theorem selectBest_mem (l : List (ℕ × α)) (p : ℕ × α)
    (h : selectBest l none = some p) : p ∈ l := by
  obtain ⟨-, l1, l2, heq, -⟩ := selectBest_none_spec l p h
  subst heq
  exact List.mem_append_right _ (List.mem_cons_self _ _)

theorem selectBest_ne_none (l : List (ℕ × α)) (hl : l ≠ []) :
    selectBest l none ≠ none := by
  cases l with
  | nil => exact absurd rfl hl
  | cons x rest =>
    obtain ⟨j, s⟩ := x
    have := selectBest_some_isSome rest (j, s)
    simp only [selectBest]
    intro hcon
    rw [hcon] at this
    exact Bool.noConfusion this

/-! ### Lemmas about `listMax` and `dMaxOf` -/

theorem le_foldl_max (l : List α) :
    ∀ a : α, a ≤ l.foldl max a ∧ ∀ x ∈ l, x ≤ l.foldl max a := by
  induction l with
  | nil => intro a; exact ⟨le_refl a, by simp⟩
  | cons y ys ih =>
    intro a
    simp only [List.foldl_cons]
    refine ⟨le_trans (le_max_left a y) (ih (max a y)).1, ?_⟩
    intro x hx
    rcases List.mem_cons.mp hx with rfl | hx'
    · exact le_trans (le_max_right a x) (ih (max a x)).1
    · exact (ih (max a y)).2 x hx'

theorem le_listMax (l : List α) (x : α) (hx : x ∈ l) : x ≤ listMax l := by
  cases l with
  | nil => cases hx
  | cons y ys =>
    rcases List.mem_cons.mp hx with rfl | hx'
    · exact (le_foldl_max ys x).1
    · exact (le_foldl_max ys y).2 x hx'

/-! ### Lemmas about the route evaluator -/

theorem pairSum_nil (hav : α × α → α × α → α) (coords : List (α × α)) :
    pairSum hav coords [] = 0 := rfl

theorem pairSum_single (hav : α × α → α × α → α) (coords : List (α × α))
    (a : ℕ) : pairSum hav coords [a] = 0 := rfl

theorem pairSum_append_pair (hav : α × α → α × α → α) (coords : List (α × α))
    (l : List ℕ) (a j : ℕ) :
    pairSum hav coords (l ++ [a, j]) =
      pairSum hav coords (l ++ [a]) +
        hav (nthCoord coords a) (nthCoord coords j) := by
  induction l with
  | nil => simp [pairSum]
  | cons x l' ih =>
    cases l' with
    | nil => simp [pairSum]
    | cons y l'' =>
      show hav (nthCoord coords x) (nthCoord coords y) +
            pairSum hav coords ((y :: l'') ++ [a, j]) =
          hav (nthCoord coords x) (nthCoord coords y) +
            pairSum hav coords ((y :: l'') ++ [a]) +
            hav (nthCoord coords a) (nthCoord coords j)
      rw [ih]
      ring

theorem pairSum_concat (hav : α × α → α × α → α) (coords : List (α × α))
    (path : List ℕ) (c j : ℕ) (h : path.getLast? = some c) :
    pairSum hav coords (path ++ [j]) =
      pairSum hav coords path +
        hav (nthCoord coords c) (nthCoord coords j) := by
  obtain ⟨t, rfl⟩ := List.getLast?_eq_some_iff.mp h
  have harr : t ++ [c] ++ [j] = t ++ [c, j] := by simp
  rw [harr]
  exact pairSum_append_pair hav coords t c j

theorem pairSum_reverse (hav : α × α → α × α → α) (coords : List (α × α))
    (hsym : ∀ p q, hav p q = hav q p) :
    ∀ l : List ℕ, pairSum hav coords l.reverse = pairSum hav coords l := by
  intro l
  induction l with
  | nil => rfl
  | cons x t ih =>
    cases t with
    | nil => rfl
    | cons y t' =>
      have hrev : (x :: y :: t').reverse = (y :: t').reverse ++ [x] := by
        simp
      have hlast : ((y :: t').reverse).getLast? = some y := by
        rw [List.reverse_cons, List.getLast?_concat]
      rw [hrev, pairSum_concat hav coords _ y x hlast, ih,
        hsym (nthCoord coords y) (nthCoord coords x)]
      simp only [pairSum]
      ring

theorem total_eq_pairSum (hav : α × α → α × α → α) (order : List ℕ)
    (coords : List (α × α)) :
    total_distance_km_along_order hav order coords = pairSum hav coords order := by
  unfold total_distance_km_along_order
  split
  · rename_i hlen
    match order, hlen with
    | [], _ => rfl
    | [a], _ => rfl
  · rfl

/-! ### Lemmas about `pyRound` -/

theorem pyRound_zero [FloorRing α] : pyRound (0 : α) = 0 := by
  simp [pyRound]

theorem abs_pyRound_sub_le [FloorRing α] (x : α) :
    |((pyRound x : ℤ) : α) - x| ≤ 1 / 2 := by
  have h0 : (0 : α) ≤ x - (⌊x⌋ : α) := sub_nonneg.mpr (Int.floor_le x)
  have h1 : x - (⌊x⌋ : α) < 1 := by
    have := Int.lt_floor_add_one x
    linarith
  simp only [pyRound]
  split_ifs with ha hb hc
  all_goals rw [abs_le]; constructor <;> push_cast <;> linarith

/-! ### Lemmas about `stepScores` and the greedy loop -/

theorem stepScores_eq_map (hav : α × α → α × α → α) (coords : List (α × α))
    (dmg : List α) (w : α) (c : ℕ) (u : List ℕ) :
    stepScores hav coords dmg w c u =
      u.map fun j => (j, scoreExpr hav coords dmg w c u j) := by
  unfold stepScores scoreExpr
  rw [List.map_map, List.map_map]
  rfl

theorem stepScores_ne_nil (hav : α × α → α × α → α) (coords : List (α × α))
    (dmg : List α) (w : α) (c : ℕ) (u : List ℕ) (hu : u ≠ []) :
    stepScores hav coords dmg w c u ≠ [] := by
  rw [stepScores_eq_map]
  simpa using hu

theorem mem_of_stepScores (hav : α × α → α × α → α) (coords : List (α × α))
    (dmg : List α) (w : α) (c : ℕ) (u : List ℕ) (j : ℕ) (s : α)
    (h : (j, s) ∈ stepScores hav coords dmg w c u) :
    j ∈ u ∧ s = scoreExpr hav coords dmg w c u j := by
  rw [stepScores_eq_map] at h
  obtain ⟨j', hj', heq⟩ := List.mem_map.mp h
  obtain ⟨rfl, rfl⟩ := Prod.mk.injEq .. ▸ heq
  exact ⟨hj', rfl⟩

theorem stepScores_mem (hav : α × α → α × α → α) (coords : List (α × α))
    (dmg : List α) (w : α) (c : ℕ) (u : List ℕ) (j : ℕ) (hj : j ∈ u) :
    (j, scoreExpr hav coords dmg w c u j) ∈ stepScores hav coords dmg w c u := by
  rw [stepScores_eq_map]
  exact List.mem_map.mpr ⟨j, hj, rfl⟩

theorem greedyLoop_extends (hav : α × α → α × α → α) (coords : List (α × α))
    (dmg : List α) (w : α) :
    ∀ (fuel : ℕ) (u : List ℕ) (c : ℕ) (path : List ℕ) (t : α),
      ∃ r, (greedyLoop hav coords dmg w fuel u c path t).1 = path ++ r := by
  intro fuel
  induction fuel with
  | zero =>
    intro u c path t
    exact ⟨[], by simp [greedyLoop]⟩
  | succ f ih =>
    intro u c path t
    by_cases hemp : u = []
    · exact ⟨[], by simp [greedyLoop, hemp]⟩
    · simp only [greedyLoop]
      rw [if_neg hemp]
      split
      · exact ⟨[], by simp⟩
      · rename_i j s heq
        obtain ⟨r, hr⟩ := ih (u.erase j) j (path ++ [j]) _
        refine ⟨j :: r, ?_⟩
        rw [hr, List.append_assoc]
        rfl

theorem greedyLoop_perm (hav : α × α → α × α → α) (coords : List (α × α))
    (dmg : List α) (w : α) :
    ∀ (fuel : ℕ) (u : List ℕ), u.length ≤ fuel →
      ∀ (c : ℕ) (path : List ℕ) (t : α),
        (greedyLoop hav coords dmg w fuel u c path t).1.Perm (path ++ u) := by
  intro fuel
  induction fuel with
  | zero =>
    intro u hu c path t
    have hu0 : u = [] := List.length_eq_zero.mp (Nat.le_zero.mp hu)
    subst hu0
    simp [greedyLoop]
  | succ f ih =>
    intro u hu c path t
    by_cases hemp : u = []
    · subst hemp
      simp [greedyLoop]
    · simp only [greedyLoop]
      rw [if_neg hemp]
      split
      · rename_i heq
        exact absurd heq
          (selectBest_ne_none _ (stepScores_ne_nil hav coords dmg w c u hemp))
      · rename_i j s heq
        have hmem := selectBest_mem _ _ heq
        obtain ⟨hj, -⟩ := mem_of_stepScores hav coords dmg w c u j s hmem
        have hpos : 0 < u.length := List.length_pos.mpr hemp
        have hlen : (u.erase j).length ≤ f := by
          rw [List.length_erase_of_mem hj]
          omega
        have hrec := ih (u.erase j) hlen j (path ++ [j])
          (t + hav (nthCoord coords c) (nthCoord coords j))
        refine hrec.trans ?_
        have hstep : (path ++ [j]) ++ u.erase j = path ++ (j :: u.erase j) := by
          rw [List.append_assoc]
          rfl
        rw [hstep]
        exact List.Perm.append_left path (List.perm_cons_erase hj).symm

theorem greedyLoop_cost (hav : α × α → α × α → α) (coords : List (α × α))
    (dmg : List α) (w : α) :
    ∀ (fuel : ℕ) (u : List ℕ) (c : ℕ) (path : List ℕ) (t : α),
      path.getLast? = some c → t = pairSum hav coords path →
      (greedyLoop hav coords dmg w fuel u c path t).2 =
        pairSum hav coords (greedyLoop hav coords dmg w fuel u c path t).1 := by
  intro fuel
  induction fuel with
  | zero =>
    intro u c path t hl ht
    simpa [greedyLoop] using ht
  | succ f ih =>
    intro u c path t hl ht
    by_cases hemp : u = []
    · simpa [greedyLoop, hemp] using ht
    · simp only [greedyLoop]
      rw [if_neg hemp]
      split
      · simpa using ht
      · rename_i j s heq
        refine ih (u.erase j) j (path ++ [j]) _ (List.getLast?_concat _) ?_
        rw [ht]
        exact (pairSum_concat hav coords path c j hl).symm

/-- The site indices of a step's scored list ascend whenever the
unvisited list does; together with `List.pairwise_lt_range'` and
`List.erase_sublist` this shows every scored list the greedy loop hands to
`selectBest` has strictly ascending site indices, starting from
`List.range' 1 (n - 1)` and shrinking by `List.erase`. -/
theorem stepScores_fst_sorted (hav : α × α → α × α → α)
    (coords : List (α × α)) (dmg : List α) (w : α) (c : ℕ) (u : List ℕ)
    (hu : u.Pairwise (· < ·)) :
    (stepScores hav coords dmg w c u).Pairwise fun p q => p.1 < q.1 := by
  rw [stepScores_eq_map]
  exact List.pairwise_map.mpr hu

/-- Erasing an element preserves the ascending-index invariant of the
unvisited list. -/
theorem erase_pairwise_lt (u : List ℕ) (j : ℕ) (hu : u.Pairwise (· < ·)) :
    (u.erase j).Pairwise (· < ·) :=
  List.Pairwise.sublist (List.erase_sublist j u) hu

/-! ### Lemmas about `_route_order_greedy` -/

theorem cons_range'_eq_range (n : ℕ) (h : 1 ≤ n) :
    [0] ++ List.range' 1 (n - 1) = List.range n := by
  obtain ⟨m, rfl⟩ : ∃ m, n = m + 1 := ⟨n - 1, by omega⟩
  simp only [Nat.add_sub_cancel]
  have happ := List.range'_append 0 1 m 1
  simp only [List.range'_one, Nat.mul_one, Nat.add_zero, Nat.zero_add] at happ
  rw [List.range_eq_range']
  exact happ

theorem greedy_perm (hav : α × α → α × α → α) (coords : List (α × α))
    (dmg : List α) (w : α) (h : 2 ≤ coords.length) :
    (_route_order_greedy hav coords dmg w).1.Perm
      (List.range coords.length) := by
  simp only [_route_order_greedy]
  rw [if_neg (by omega)]
  have hfuel : (List.range' 1 (coords.length - 1)).length ≤ coords.length - 1 := by
    rw [List.length_range']
  have hp := greedyLoop_perm hav coords dmg w (coords.length - 1)
    (List.range' 1 (coords.length - 1)) hfuel 0 [0] 0
  refine hp.trans ?_
  rw [cons_range'_eq_range coords.length (by omega)]

theorem greedy_head (hav : α × α → α × α → α) (coords : List (α × α))
    (dmg : List α) (w : α) :
    (_route_order_greedy hav coords dmg w).1.head? = some 0 := by
  simp only [_route_order_greedy]
  split
  · rfl
  · obtain ⟨r, hr⟩ := greedyLoop_extends hav coords dmg w (coords.length - 1)
      (List.range' 1 (coords.length - 1)) 0 [0] 0
    rw [hr]
    rfl

theorem greedy_cost_eq (hav : α × α → α × α → α) (coords : List (α × α))
    (dmg : List α) (w : α) :
    (_route_order_greedy hav coords dmg w).2 =
      total_distance_km_along_order hav
        (_route_order_greedy hav coords dmg w).1 coords := by
  rw [total_eq_pairSum]
  simp only [_route_order_greedy]
  split
  · rfl
  · exact greedyLoop_cost hav coords dmg w (coords.length - 1)
      (List.range' 1 (coords.length - 1)) 0 [0] 0 rfl rfl

theorem greedy_mem_lt (hav : α × α → α × α → α) (coords : List (α × α))
    (dmg : List α) (w : α) (h : 1 ≤ coords.length) :
    ∀ x ∈ (_route_order_greedy hav coords dmg w).1, x < coords.length := by
  intro x hx
  by_cases h2 : 2 ≤ coords.length
  · have hp := greedy_perm hav coords dmg w h2
    exact List.mem_range.mp (hp.mem_iff.mp hx)
  · simp only [_route_order_greedy] at hx
    rw [if_pos (by omega)] at hx
    have : x = 0 := by simpa using hx
    omega

/-! ### The clamp is idempotent -/

theorem clamp_idem (w : α) :
    max 0 (min 1 (max 0 (min 1 w))) = max 0 (min 1 w) := by
  have h1 : (0 : α) ≤ max 0 (min 1 w) := le_max_left _ _
  have h2 : max (0 : α) (min 1 w) ≤ 1 :=
    max_le zero_le_one (min_le_left _ _)
  rw [min_eq_right h2, max_eq_right h1]

/-! ### Symmetry of the haversine formula -/

theorem haversine_km_symm (lat1 lng1 lat2 lng2 : ℝ) :
    haversine_km lat1 lng1 lat2 lng2 = haversine_km lat2 lng2 lat1 lng1 := by
  simp only [haversine_km, radians]
  have ha : Real.sin ((lat2 - lat1) * (Real.pi / 180) / 2) ^ 2 +
        Real.cos (lat1 * (Real.pi / 180)) * Real.cos (lat2 * (Real.pi / 180)) *
          Real.sin ((lng2 - lng1) * (Real.pi / 180) / 2) ^ 2 =
      Real.sin ((lat1 - lat2) * (Real.pi / 180) / 2) ^ 2 +
        Real.cos (lat2 * (Real.pi / 180)) * Real.cos (lat1 * (Real.pi / 180)) *
          Real.sin ((lng1 - lng2) * (Real.pi / 180) / 2) ^ 2 := by
    have e1 : (lat1 - lat2) * (Real.pi / 180) / 2 =
        -((lat2 - lat1) * (Real.pi / 180) / 2) := by ring
    have e2 : (lng1 - lng2) * (Real.pi / 180) / 2 =
        -((lng2 - lng1) * (Real.pi / 180) / 2) := by ring
    rw [e1, e2, Real.sin_neg, Real.sin_neg]
    ring
  rw [ha]

theorem havReal_symm (p q : ℝ × ℝ) : havReal p q = havReal q p :=
  haversine_km_symm p.1 p.2 q.1 q.2

/-! ### Claim theorems -/

/-- C1: for every hub and every non-empty list of `n` sites (any metric,
any damage table, any weight), the greedy constructor returns an order of
length `n + 1`, whose first element is the Hub index `0`, and which
contains each node index `0..n` exactly once — no site omitted or
duplicated. -/
theorem claim_C1 (hav : (ℚ × ℚ) → (ℚ × ℚ) → ℚ) (coords : List (ℚ × ℚ))
    (dmg : List ℚ) (w : ℚ) (n : ℕ) (hn : coords.length = n + 1)
    (h1 : 1 ≤ n) :
    (_route_order_greedy hav coords dmg w).1.length = n + 1 ∧
    (_route_order_greedy hav coords dmg w).1.head? = some 0 ∧
    ∀ k ≤ n, (_route_order_greedy hav coords dmg w).1.count k = 1 := by
  have h2 : 2 ≤ coords.length := by omega
  have hp := greedy_perm hav coords dmg w h2
  refine ⟨?_, greedy_head hav coords dmg w, ?_⟩
  · rw [hp.length_eq, List.length_range, hn]
  · intro k hk
    rw [hp.count_eq k]
    exact List.count_eq_one_of_mem (List.nodup_range _)
      (List.mem_range.mpr (by omega))

/-- Witness for C1 at a concrete hub, three sites and weight 1. -/
theorem claim_C1_witness :
    ([((0 : ℚ), 0), (0, 1), (0, 2)] : List (ℚ × ℚ)).length = 2 + 1 ∧
    1 ≤ 2 ∧
    ((_route_order_greedy zeroMetric [((0 : ℚ), 0), (0, 1), (0, 2)]
        [0, 10, 90] 1).1.length = 2 + 1 ∧
      (_route_order_greedy zeroMetric [((0 : ℚ), 0), (0, 1), (0, 2)]
        [0, 10, 90] 1).1.head? = some 0 ∧
      ∀ k ≤ 2, (_route_order_greedy zeroMetric [((0 : ℚ), 0), (0, 1), (0, 2)]
        [0, 10, 90] 1).1.count k = 1) :=
  ⟨rfl, by decide,
    claim_C1 zeroMetric [((0 : ℚ), 0), (0, 1), (0, 2)] [0, 10, 90] 1 2 rfl
      (by decide)⟩

/-- C3: for every input (any algorithm selector, any solver oracle), the
cost returned as the second output of `route_order` equals the raw travel
distance along the returned order as computed by the Route Evaluator on
the combined coordinate table — on the greedy path via its running
accumulator and on the solver path by explicit recomputation. -/
theorem claim_C3 (importOk : Bool) (solve : List (List ℤ) → Option (List ℕ))
    (hav : (ℚ × ℚ) → (ℚ × ℚ) → ℚ) (hub : ℚ × ℚ) (sites : List (ℚ × ℚ × ℚ))
    (w : ℚ) (alg : String) :
    (route_order importOk solve hav hub sites w alg).2 =
      total_distance_km_along_order hav
        (route_order importOk solve hav hub sites w alg).1
        (hub :: sites.map fun s => (s.1, s.2.1)) := by
  simp only [route_order]
  by_cases hs : sites = []
  · rw [if_pos hs]
    rfl
  · rw [if_neg hs]
    by_cases halg : alg = "tsp"
    · rw [if_pos halg]
      simp only [_route_order_tsp]
      by_cases hflag : importOk = false
      · rw [if_pos hflag]
        exact greedy_cost_eq hav _ _ _
      · rw [if_neg hflag]
        by_cases hn : (hub :: sites.map fun s => (s.1, s.2.1)).length ≤ 1
        · rw [if_pos hn]
          rfl
        · rw [if_neg hn]
          split
          · exact greedy_cost_eq hav _ _ _
          · rfl
    · rw [if_neg halg]
      exact greedy_cost_eq hav _ _ _

/-- C6: the per-step normalisation divisor is never zero — it is the
maximum of the step's distance list, replaced by `1` exactly when that
maximum is `0` — so the division computing `dist_norm` never divides by
zero. -/
theorem claim_C6 (ds : List ℚ) :
    dMaxOf ds ≠ 0 ∧
    (listMax ds = 0 → dMaxOf ds = 1) ∧
    (listMax ds ≠ 0 → dMaxOf ds = listMax ds) ∧
    ∀ x ∈ ds, x ≤ listMax ds := by
  refine ⟨?_, ?_, ?_, fun x hx => le_listMax ds x hx⟩
  · simp only [dMaxOf]
    split
    · exact one_ne_zero
    · assumption
  · intro h
    simp [dMaxOf, h]
  · intro h
    simp [dMaxOf, h]

/-- Witness for C6 on the all-zero distance list. -/
theorem claim_C6_witness :
    dMaxOf [(0 : ℚ)] = 1 ∧ dMaxOf [(0 : ℚ)] ≠ 0 ∧
    (0 : ℚ) ≤ listMax [(0 : ℚ)] :=
  ⟨(claim_C6 [0]).2.1 rfl, (claim_C6 [0]).1,
    (claim_C6 [0]).2.2.2 0 (by simp)⟩

/-- C8: the Route Evaluator applied to a reversed order returns the same
total as on the original order, because the haversine distance is
symmetric in its two endpoints. -/
theorem claim_C8 (order : List ℕ) (coords : List (ℝ × ℝ)) :
    total_distance_km_along_order havReal order.reverse coords =
      total_distance_km_along_order havReal order coords := by
  rw [total_eq_pairSum, total_eq_pairSum]
  exact pairSum_reverse havReal coords havReal_symm order

/-- C9: `route_order` first clamps the damage weight into `[0, 1]`, so an
out-of-range weight is not an error: the result at weight `w` equals the
result at `max 0 (min 1 w)` for every `w`. -/
theorem claim_C9 (importOk : Bool) (solve : List (List ℤ) → Option (List ℕ))
    (hav : (ℚ × ℚ) → (ℚ × ℚ) → ℚ) (hub : ℚ × ℚ) (sites : List (ℚ × ℚ × ℚ))
    (w : ℚ) (alg : String) :
    route_order importOk solve hav hub sites w alg =
      route_order importOk solve hav hub sites (max 0 (min 1 w)) alg := by
  simp only [route_order, clamp_idem]

/-- C2: if the solver import fails, or the solver returns no feasible
assignment on the cost matrix built from the inputs, the tsp path returns
exactly the greedy constructor's `(order, cost)` pair on the same inputs;
no error is surfaced. -/
theorem claim_C2 (importOk : Bool) (solve : List (List ℤ) → Option (List ℕ))
    (hav : (ℚ × ℚ) → (ℚ × ℚ) → ℚ) (coords : List (ℚ × ℚ)) (dmg : List ℚ)
    (w : ℚ)
    (h : importOk = false ∨ solve (buildCostMatrix hav coords dmg w) = none) :
    _route_order_tsp importOk solve hav coords dmg w =
      _route_order_greedy hav coords dmg w := by
  simp only [_route_order_tsp]
  by_cases hflag : importOk = false
  · rw [if_pos hflag]
  · rw [if_neg hflag]
    have hsol : solve (buildCostMatrix hav coords dmg w) = none :=
      h.resolve_left hflag
    by_cases hn : coords.length ≤ 1
    · rw [if_pos hn]
      simp only [_route_order_greedy]
      rw [if_pos hn]
    · rw [if_neg hn, hsol]

/-- Witness for C2 with the import-failure flag set. -/
theorem claim_C2_witness :
    ((false = false) ∨
      noSolver (buildCostMatrix zeroMetric [((0 : ℚ), 0), (0, 1)] [0, 10] 1) =
        none) ∧
    _route_order_tsp false noSolver zeroMetric [((0 : ℚ), 0), (0, 1)]
        [0, 10] 1 =
      _route_order_greedy zeroMetric [((0 : ℚ), 0), (0, 1)] [0, 10] 1 :=
  ⟨Or.inl rfl,
    claim_C2 false noSolver zeroMetric [((0 : ℚ), 0), (0, 1)] [0, 10] 1
      (Or.inl rfl)⟩

/-- C5: in a greedy selection step over a scored candidate list whose
site indices ascend (the iteration order of the unvisited set), the pair
returned by the selection loop belongs to the list, carries the maximum
score, is preceded only by strictly lower scores (first encountered wins),
and on exact score ties has the lowest site index. -/
theorem claim_C5 (l : List (ℕ × ℚ)) (j : ℕ) (s : ℚ)
    (hsorted : l.Pairwise fun p q => p.1 < q.1)
    (h : selectBest l none = some (j, s)) :
    (j, s) ∈ l ∧
    (∀ q ∈ l, q.2 ≤ s) ∧
    (∃ l1 l2, l = l1 ++ (j, s) :: l2 ∧ ∀ q ∈ l1, q.2 < s) ∧
    ∀ q ∈ l, q.2 = s → j ≤ q.1 := by
  obtain ⟨hmax, l1, l2, heq, hlow⟩ := selectBest_none_spec l (j, s) h
  refine ⟨selectBest_mem l (j, s) h, hmax, ⟨l1, l2, heq, hlow⟩, ?_⟩
  intro q hq hqs
  subst heq
  rcases List.mem_append.mp hq with hq1 | hq2
  · exact absurd hqs (ne_of_lt (hlow q hq1))
  · rcases List.mem_cons.mp hq2 with rfl | hq3
    · exact le_refl j
    · have hpair := (List.pairwise_append.mp hsorted).2.1
      exact le_of_lt (List.rel_of_pairwise_cons hpair hq3)

/-- Witness for C5 on a three-candidate step with an exact score tie. -/
theorem claim_C5_witness :
    ([((1 : ℕ), (1 : ℚ)), (2, 1), (3, 0)]).Pairwise
        (fun p q => p.1 < q.1) ∧
    selectBest [((1 : ℕ), (1 : ℚ)), (2, 1), (3, 0)] none = some (1, 1) ∧
    ∀ q ∈ ([((1 : ℕ), (1 : ℚ)), (2, 1), (3, 0)] : List (ℕ × ℚ)),
      q.2 = 1 → 1 ≤ q.1 :=
  ⟨by decide, by decide,
    (claim_C5 [((1 : ℕ), (1 : ℚ)), (2, 1), (3, 0)] 1 1 (by decide)
      (by decide)).2.2.2⟩

/-- C7: every cost-matrix entry `(i, j)` with `i ≠ j` is the haversine
distance discounted by the destination damage, scaled by 1000 and rounded
to the nearest integer (Python halves-to-even rounding, which is within
`1/2` of the exact value); every diagonal entry is `0`; and every entry
with destination `j = 0` (the Hub) is forced to `0`. -/
theorem claim_C7 (hav : (ℚ × ℚ) → (ℚ × ℚ) → ℚ) (coords : List (ℚ × ℚ))
    (dmg : List ℚ) (w : ℚ) (i j : ℕ)
    (hi : i < coords.length) (hj : j < coords.length) :
    ∃ row, (buildCostMatrix hav coords dmg w)[i]? = some row ∧
      row[j]? = some (
        if i = j then 0
        else if j = 0 then 0
        else pyRound (hav (nthCoord coords i) (nthCoord coords j) *
          (1 - w * dmg.getD j 0 / 100) * 1000)) ∧
      ∀ x : ℚ, |((pyRound x : ℤ) : ℚ) - x| ≤ 1 / 2 := by
  refine ⟨(List.range coords.length).map fun jj =>
      if i = jj then 0
      else
        pyRound ((if jj = 0 then 0
          else hav (nthCoord coords i) (nthCoord coords jj) *
            (1 - w * dmg.getD jj 0 / 100)) * 1000),
    ?_, ?_, fun x => abs_pyRound_sub_le x⟩
  · simp only [buildCostMatrix]
    rw [List.getElem?_map, List.getElem?_range hi]
    rfl
  · rw [List.getElem?_map, List.getElem?_range hj]
    by_cases hij : i = j
    · simp [hij]
    · by_cases hj0 : j = 0
      · simp [hij, hj0, pyRound_zero]
      · simp [hij, hj0]

/-- Witness for C7 at the Hub column of a two-node instance. -/
theorem claim_C7_witness :
    1 < ([((0 : ℚ), 0), (0, 1)] : List (ℚ × ℚ)).length ∧
    0 < ([((0 : ℚ), 0), (0, 1)] : List (ℚ × ℚ)).length ∧
    ∃ row,
      (buildCostMatrix zeroMetric [((0 : ℚ), 0), (0, 1)] [0, 10] 1)[1]? =
        some row ∧
      row[0]? = some (
        if (1 : ℕ) = 0 then 0
        else if (0 : ℕ) = 0 then 0
        else pyRound (zeroMetric
          (nthCoord [((0 : ℚ), 0), (0, 1)] 1)
          (nthCoord [((0 : ℚ), 0), (0, 1)] 0) *
          (1 - 1 * ([0, 10] : List ℚ).getD 0 0 / 100) * 1000)) ∧
      ∀ x : ℚ, |((pyRound x : ℤ) : ℚ) - x| ≤ 1 / 2 :=
  ⟨by decide, by decide,
    claim_C7 zeroMetric [((0 : ℚ), 0), (0, 1)] [0, 10] 1 1 0 (by decide)
      (by decide)⟩

/-- C10: every node index in the order returned by `route_order` for `n`
sites lies in `[0, n]`, given that the solver oracle only emits node
indices in that range (the `ortools` index manager maps solver indices
back into `0..n`), so the boundary's recomputation of the raw distance
never indexes the coordinate table out of bounds. -/
theorem claim_C10 (importOk : Bool) (solve : List (List ℤ) → Option (List ℕ))
    (hav : (ℚ × ℚ) → (ℚ × ℚ) → ℚ) (hub : ℚ × ℚ) (sites : List (ℚ × ℚ × ℚ))
    (w : ℚ) (alg : String)
    (hsolve : ∀ cm o, solve cm = some o → ∀ x ∈ o, x ≤ sites.length) :
    ∀ x ∈ (route_order importOk solve hav hub sites w alg).1,
      x ≤ sites.length := by
  intro x hx
  simp only [route_order] at hx
  have hclen : (hub :: sites.map fun s => (s.1, s.2.1)).length =
      sites.length + 1 := by simp
  by_cases hs : sites = []
  · rw [if_pos hs] at hx
    have hx0 : x = 0 := by simpa using hx
    omega
  · rw [if_neg hs] at hx
    by_cases halg : alg = "tsp"
    · rw [if_pos halg] at hx
      simp only [_route_order_tsp] at hx
      by_cases hflag : importOk = false
      · rw [if_pos hflag] at hx
        have := greedy_mem_lt hav _ _ _ (by omega) x hx
        omega
      · rw [if_neg hflag] at hx
        by_cases hn : (hub :: sites.map fun s => (s.1, s.2.1)).length ≤ 1
        · rw [if_pos hn] at hx
          have hx0 : x = 0 := by simpa using hx
          omega
        · rw [if_neg hn] at hx
          split at hx
          · have := greedy_mem_lt hav _ _ _ (by omega) x hx
            omega
          · rename_i extracted heq
            have hmem : x ∈ extracted := by
              split at hx
              · exact (List.dropLast_sublist extracted).subset hx
              · exact hx
            exact hsolve _ extracted heq x hmem
    · rw [if_neg halg] at hx
      have := greedy_mem_lt hav _ _ _ (by omega) x hx
      omega

/-- C4: with damage weight `1` the first site selected by the greedy
constructor — the second element of the returned order — carries the
maximum damage score among all sites; the distance term contributes
nothing, which is visible in the statement holding for every metric. -/
theorem claim_C4 (hav : (ℚ × ℚ) → (ℚ × ℚ) → ℚ) (coords : List (ℚ × ℚ))
    (dmg : List ℚ) (h2 : 2 ≤ coords.length) :
    ∃ j, (_route_order_greedy hav coords dmg 1).1[1]? = some j ∧
      1 ≤ j ∧ j < coords.length ∧
      ∀ k, 1 ≤ k → k < coords.length → dmg.getD k 0 ≤ dmg.getD j 0 := by
  simp only [_route_order_greedy]
  rw [if_neg (by omega)]
  obtain ⟨f, hf⟩ : ∃ f, coords.length - 1 = f + 1 := ⟨coords.length - 2, by omega⟩
  have hcl : coords.length = f + 2 := by omega
  rw [hf]
  have hune : List.range' 1 (f + 1) ≠ [] := by simp
  simp only [greedyLoop]
  rw [if_neg hune]
  split
  · rename_i heq
    exact absurd heq
      (selectBest_ne_none _ (stepScores_ne_nil hav coords dmg 1 0 _ hune))
  · rename_i j s heq
    have hmem := selectBest_mem _ _ heq
    obtain ⟨hj, hs⟩ :=
      mem_of_stepScores hav coords dmg 1 0 (List.range' 1 (f + 1)) j s hmem
    have hjr : 1 ≤ j ∧ j < 1 + (f + 1) := List.mem_range'_1.mp hj
    obtain ⟨r, hr⟩ := greedyLoop_extends hav coords dmg 1 f
      ((List.range' 1 (f + 1)).erase j) j ([0] ++ [j])
      (0 + hav (nthCoord coords 0) (nthCoord coords j))
    refine ⟨j, ?_, hjr.1, by omega, ?_⟩
    · rw [hr]
      simp
    · intro k hk1 hk2
      have hkmem : k ∈ List.range' 1 (f + 1) :=
        List.mem_range'_1.mpr ⟨hk1, by omega⟩
      have hkS := stepScores_mem hav coords dmg 1 0 (List.range' 1 (f + 1)) k hkmem
      obtain ⟨hmax, -⟩ := selectBest_none_spec _ _ heq
      have hle := hmax _ hkS
      simp only at hle
      rw [hs] at hle
      have hsimp : ∀ x, scoreExpr hav coords dmg 1 0 (List.range' 1 (f + 1)) x =
          dmg.getD x 0 / 100 := by
        intro x
        simp only [scoreExpr]
        ring
      rw [hsimp j, hsimp k] at hle
      have h100 : (0 : ℚ) < 100 := by norm_num
      exact (div_le_div_iff_of_pos_right h100).mp hle

/-- Witness for C4: three sites with damage scores 10, 90, 50 and weight
1 — the site with damage 90 is picked first. -/
theorem claim_C4_witness :
    2 ≤ ([((0 : ℚ), 0), (0, 1), (0, 2), (1, 0)] : List (ℚ × ℚ)).length ∧
    ∃ j, (_route_order_greedy zeroMetric
        [((0 : ℚ), 0), (0, 1), (0, 2), (1, 0)] [0, 10, 90, 50] 1).1[1]? =
          some j ∧
      1 ≤ j ∧
      j < ([((0 : ℚ), 0), (0, 1), (0, 2), (1, 0)] : List (ℚ × ℚ)).length ∧
      ∀ k, 1 ≤ k →
        k < ([((0 : ℚ), 0), (0, 1), (0, 2), (1, 0)] : List (ℚ × ℚ)).length →
        ([0, 10, 90, 50] : List ℚ).getD k 0 ≤
          ([0, 10, 90, 50] : List ℚ).getD j 0 :=
  ⟨by decide,
    claim_C4 zeroMetric [((0 : ℚ), 0), (0, 1), (0, 2), (1, 0)]
      [0, 10, 90, 50] (by decide)⟩

/-- Witness for C10 with a one-site request on the tsp path. -/
theorem claim_C10_witness :
    (∀ cm o, noSolver cm = some o →
      ∀ x ∈ o, x ≤ ([((0 : ℚ), 1, 10)] : List (ℚ × ℚ × ℚ)).length) ∧
    ∀ x ∈ (route_order true noSolver zeroMetric ((0 : ℚ), 0)
        [((0 : ℚ), 1, 10)] 0 "tsp").1,
      x ≤ ([((0 : ℚ), 1, 10)] : List (ℚ × ℚ × ℚ)).length :=
  ⟨fun _ _ h => Option.noConfusion h,
    claim_C10 true noSolver zeroMetric ((0 : ℚ), 0) [((0 : ℚ), 1, 10)] 0
      "tsp" (fun _ _ h => Option.noConfusion h)⟩

end Routing
